import Mathlib

/-!
Verification of the ILP packing-coloring repository.

The development shallowly embeds the Python sources:
* src/graph_generators.py : the path- and cycle-connected chains of complete
  graphs (networkx graphs become pairs of finite sets: nodes and normalized
  undirected edges; Python asserts become an Option result, none on failure);
* src/lp.py and src/lp_pulp.py : the packing-coloring MILP model construction
  (variables, constraint families, bounds and objective become finite sets of
  constraint indices with an explicit feasibility semantics), the shortest-path
  distance oracle (networkx shortest_path_length becomes a bounded breadth
  search returning Option Nat), and the result extractor (solver float values
  become rationals, the Python dict becomes a partial map).
-/

/-- An undirected edge stored normalized, smaller endpoint first, mirroring
networkx which identifies (u,v) with (v,u).  A self-loop is (v,v). -/
def normEdge (u v : ℤ) : ℤ × ℤ := if u ≤ v then (u, v) else (v, u)

/-- A networkx graph: its node set and its set of normalized undirected
edges.  Nodes appear when an incident edge is added, as in networkx. -/
structure Graph where
  nodes : Finset ℤ
  edges : Finset (ℤ × ℤ)
deriving DecidableEq

/-- nx.Graph() : the empty graph. -/
def Graph.empty : Graph := ⟨∅, ∅⟩

/-- G.add_edge(u, v) : inserts the normalized edge and both endpoints. -/
def Graph.addEdge (G : Graph) (u v : ℤ) : Graph :=
  ⟨insert u (insert v G.nodes), insert (normEdge u v) G.edges⟩

/-- G.add_edges_from(l) : folds add_edge over the list. -/
def Graph.addEdgesFrom (G : Graph) (l : List (ℤ × ℤ)) : Graph :=
  l.foldl (fun H e => H.addEdge e.1 e.2) G

/-- G.number_of_nodes() -/
def Graph.numberOfNodes (G : Graph) : ℕ := G.nodes.card

/-- G.number_of_edges() -/
def Graph.numberOfEdges (G : Graph) : ℕ := G.edges.card

/-- The edge list of nx.complete_graph(n): all pairs (i, j) with i < j < n. -/
def complete_graph_edges (n : ℕ) : List (ℤ × ℤ) :=
  (List.range n).flatMap fun i =>
    ((List.range n).filter fun j => decide (i < j)).map fun (j : ℕ) => ((i : ℤ), (j : ℤ))

/-- nx.relabel_nodes with the mapping node ↦ node + offset. -/
def relabelShift (off : ℤ) (l : List (ℤ × ℤ)) : List (ℤ × ℤ) :=
  l.map fun e => (e.1 + off, e.2 + off)

/-- One iteration of the block loop in create_path_connected_k_complete_graphs:
add the complete block at the current offset, then, when the offset is not
zero, the chain edge to the previous block; state is (graph, node_offset). -/
def blockStep (K_n B_n : ℤ) (st : Graph × ℤ) : Graph × ℤ :=
  let G := st.1
  let off := st.2
  let G1 := G.addEdgesFrom (relabelShift off (complete_graph_edges K_n.toNat))
  let G2 := if off = 0 then G1 else G1.addEdge (off - (K_n - B_n + 1)) off
  (G2, off + K_n)

/-- The for-loop over the number_of_k_complete_graphs blocks. -/
def pathLoop (K_n B_n : ℤ) : ℕ → Graph × ℤ → Graph × ℤ
  | 0, st => st
  | n + 1, st => pathLoop K_n B_n n (blockStep K_n B_n st)

/-- create_path_connected_k_complete_graphs from src/graph_generators.py.
The four Python asserts (P_n > 0, B_n > 0, B_n ≤ K_n, P_n % B_n == 0) become
the guard; assertion failure is none.  P_n // B_n for positive operands is
integer division. -/
def create_path_connected_k_complete_graphs (P_n B_n K_n : ℤ) : Option Graph :=
  if 0 < P_n ∧ 0 < B_n ∧ B_n ≤ K_n ∧ P_n % B_n = 0 then
    some (pathLoop K_n B_n (P_n / B_n).toNat (Graph.empty, 0)).1
  else
    none

/-- create_cycle_connected_k_complete_graphs from src/graph_generators.py:
assert B_n == 2, build the path chain, then add the closing edge
(0, number_of_nodes − 1 − 3). -/
def create_cycle_connected_k_complete_graphs (P_n B_n K_n : ℤ) : Option Graph :=
  if B_n = 2 then
    (create_path_connected_k_complete_graphs P_n B_n K_n).map fun G =>
      G.addEdge 0 ((G.numberOfNodes : ℤ) - 1 - 3)
  else
    none

/-! ## Distance oracle (nx.shortest_path_length) -/

/-- Adjacency test on the normalized edge set. -/
def Graph.adjb (G : Graph) (u v : ℤ) : Bool := decide (normEdge u v ∈ G.edges)

/-- Boolean disjunction of a predicate over a finite set. -/
def finsetAny {α : Type} [DecidableEq α] (s : Finset α) (f : α → Bool) : Bool :=
  s.fold (· || ·) false f

/-- Is there a walk of length at most n from u to v (intermediate and final
vertices drawn from the node set)? -/
def reachIn (G : Graph) : ℕ → ℤ → ℤ → Bool
  | 0, u, v => u == v
  | n + 1, u, v =>
    u == v || finsetAny G.nodes fun w => G.adjb u w && reachIn G n w v

/-- nx.shortest_path_length(G, u, v): the unweighted shortest-path hop count,
none when no path exists (the NetworkXNoPath case).  The least n with a walk
of length at most n is the shortest-path length; a shortest path has fewer
than number_of_nodes hops, so searching n < number_of_nodes is exhaustive. -/
def shortest_path_length (G : Graph) (u v : ℤ) : Option ℕ :=
  (List.range G.numberOfNodes).find? fun n => reachIn G n u v

/-- The distance between the unordered pair {u, v}: the oracle evaluated on
the canonical (sorted) orientation of the pair.  nx.shortest_path_length is
symmetric in its endpoints, so this is the distance of the pair. -/
def pairDist (G : Graph) (u v : ℤ) : Option ℕ :=
  shortest_path_length G (min u v) (max u v)

/-- The distance test guarding the packing constraint: known distance ≤ i;
no path (the caught NetworkXNoPath) yields no constraint. -/
def distLE (G : Graph) (u v : ℤ) (i : ℕ) : Bool :=
  match shortest_path_length G u v with
  | some d => decide (d ≤ i)
  | none => false

/-! ## The packing-coloring MILP model (src/lp.py and src/lp_pulp.py) -/

/-- The color index range 1..k of the Python loops range(1, k+1). -/
def colorRange (k : ℕ) : Finset ℕ := Finset.Icc 1 k

/-- The abstract MILP instance built by solve_packing_coloring_cplex and
solve_packing_coloring_pulp: the index sets of the variables and of the three
constraint families, the bounds of z, and the minimize-z objective.
The packing constraints are indexed by the canonically oriented unordered
pair and the color. -/
structure MilpModel where
  k : ℕ
  xVars : Finset (ℤ × ℕ)
  zLB : ℤ
  zUB : ℤ
  minimizeZ : Bool
  oneColor : Finset ℤ
  pack : Finset ((ℤ × ℤ) × ℕ)
  maxColor : Finset (ℤ × ℕ)
deriving DecidableEq

/-- The unordered pairs of distinct vertices of itertools.combinations(G.nodes, 2),
each represented by its sorted orientation. -/
def vertexPairs (G : Graph) : Finset (ℤ × ℤ) :=
  (G.nodes ×ˢ G.nodes).filter fun p => p.1 < p.2

/-- The model-construction part of solve_packing_coloring_cplex (src/lp.py):
k = number_of_nodes; binary x[(v,i)] for every node v and color i in 1..k;
integer z with bounds 1..k; objective minimize z; OneColor_v for every node;
Pack_v_u_color_i for every color i and unordered node pair with known
distance d ≤ i (NetworkXNoPath pairs are skipped); MaxColor_v_i for every
node and color. -/
def packingModelCplex (G : Graph) : MilpModel :=
  let k := G.numberOfNodes
  { k := k
    xVars := G.nodes ×ˢ colorRange k
    zLB := 1
    zUB := (k : ℤ)
    minimizeZ := true
    oneColor := G.nodes
    pack := (vertexPairs G ×ˢ colorRange k).filter fun pc => distLE G pc.1.1 pc.1.2 pc.2
    maxColor := G.nodes ×ˢ colorRange k }

/-- The model-construction part of solve_packing_coloring_pulp
(src/lp_pulp.py): LpProblem with sense LpMinimize and objective z; LpBinary
x_v_i for every node and color in 1..k; LpInteger z with lowBound 1 and
upBound k; the same OneColor, Pack and MaxColor constraint families. -/
def packingModelPulp (G : Graph) : MilpModel :=
  let k := G.numberOfNodes
  { k := k
    xVars := G.nodes ×ˢ colorRange k
    zLB := 1
    zUB := (k : ℤ)
    minimizeZ := true
    oneColor := G.nodes
    pack := (vertexPairs G ×ˢ colorRange k).filter fun pc => distLE G pc.1.1 pc.1.2 pc.2
    maxColor := G.nodes ×ˢ colorRange k }

/-- Satisfaction of the built model by an assignment of the variables:
x integral 0/1 on every declared variable, z within its bounds, every
OneColor, Pack and MaxColor constraint satisfied. -/
def Feasible (M : MilpModel) (x : ℤ → ℕ → ℤ) (z : ℤ) : Prop :=
  (∀ p ∈ M.xVars, x p.1 p.2 = 0 ∨ x p.1 p.2 = 1) ∧
  M.zLB ≤ z ∧ z ≤ M.zUB ∧
  (∀ v ∈ M.oneColor, (∑ i ∈ colorRange M.k, x v i) = 1) ∧
  (∀ c ∈ M.pack, x c.1.1 c.2 + x c.1.2 c.2 ≤ 1) ∧
  (∀ c ∈ M.maxColor, (c.2 : ℤ) * x c.1 c.2 ≤ z)

/-! ## The result extractor -/

/-- The inner loop of the extraction: for i in range(start, start+count),
take the first color whose solved value exceeds 0.5, then break; none when
no value exceeds the threshold.  Solver float values are modelled as
rationals. -/
def firstColorAbove (xval : ℕ → ℚ) : ℕ → ℕ → Option ℕ
  | _, 0 => none
  | i, n + 1 => if 1 / 2 < xval i then some i else firstColorAbove xval (i + 1) n

/-- The color_assignment dict built on an Optimal outcome by
solve_packing_coloring_cplex and solve_packing_coloring_pulp: for each node v
the first color i in 1..k with x[(v,i)] value above 0.5; a node for which no
value exceeds the threshold is absent from the dict. -/
def extract_color_assignment (G : Graph) (xval : ℤ → ℕ → ℚ) : ℤ → Option ℕ :=
  fun v => if v ∈ G.nodes then firstColorAbove (xval v) 1 G.numberOfNodes else none

/-- The pair returned on an Optimal outcome: the extracted color assignment
together with the solved z value, passed through unchanged. -/
def solveResultOptimal (G : Graph) (xval : ℤ → ℕ → ℚ) (zval : ℚ) :
    (ℤ → Option ℕ) × ℚ :=
  (extract_color_assignment G xval, zval)

instance Feasible.decidable (M : MilpModel) (x : ℤ → ℕ → ℤ) (z : ℤ) :
    Decidable (Feasible M x z) := by
  unfold Feasible
  infer_instance

def witnessPath3 : Graph := (Graph.empty.addEdge 0 1).addEdge 1 2

def witnessX3 : ℤ → ℕ → ℤ := fun v i =>
  if (v = 0 ∧ i = 1) ∨ (v = 2 ∧ i = 1) ∨ (v = 1 ∧ i = 2) then 1 else 0

/-! ## C6: the extractor performs no consistency checks -/

/-- A single-edge graph for exercising the extractor: nodes 0 and 1, k = 2. -/
def extractorExampleGraph : Graph := Graph.empty.addEdge 0 1

/-- A solver value table in which vertex 0 has both color indicators above
the 0.5 threshold while vertex 1 has exactly the color-1 indicator above it. -/
def extractorExampleVals : ℤ → ℕ → ℚ := fun v i =>
  if v = 0 then 1 else if i = 1 then 1 else 0

/-- The edge set of the complete graph on n vertices labeled from an offset:
all pairs (offset + i, offset + j) with i < j < n. -/
def cliqueEdgeSet (off : ℤ) (n : ℕ) : Finset (ℤ × ℤ) :=
  ((Finset.range n ×ˢ Finset.range n).filter fun p => p.1 < p.2).image
    fun p => (off + (p.1 : ℤ), off + (p.2 : ℤ))

/-- The vertices covered by the edges of such a complete block: empty when
the block has at most one vertex (a block with no edges contributes no
nodes), the full label window otherwise. -/
def cliqueNodeSet (off : ℤ) (n : ℕ) : Finset ℤ :=
  if n ≤ 1 then ∅ else (Finset.range n).image fun (i : ℕ) => off + (i : ℤ)

/-- The complete graph on the five vertices 0..4. -/
def completeK5 : Graph := ⟨cliqueNodeSet 0 5, cliqueEdgeSet 0 5⟩

/-- The source vertex of the chain edge attached at a block offset. -/
def chainSrc (K_n B_n off : ℤ) : ℤ := off - (K_n - B_n + 1)

/-- The edges contributed by one block of the generation loop. -/
def blockEdges (K_n B_n off : ℤ) : Finset (ℤ × ℤ) :=
  cliqueEdgeSet off K_n.toNat ∪
    (if off = 0 then ∅ else {(chainSrc K_n B_n off, off)})

/-- The nodes contributed by one block of the generation loop. -/
def blockNodes (K_n B_n off : ℤ) : Finset ℤ :=
  cliqueNodeSet off K_n.toNat ∪
    (if off = 0 then ∅ else {chainSrc K_n B_n off, off})

/-- The edges contributed by n consecutive blocks starting at an offset. -/
def addedEdges (K_n B_n : ℤ) : ℕ → ℤ → Finset (ℤ × ℤ)
  | 0, _ => ∅
  | n + 1, off => blockEdges K_n B_n off ∪ addedEdges K_n B_n n (off + K_n)

/-- The nodes contributed by n consecutive blocks starting at an offset. -/
def addedNodes (K_n B_n : ℤ) : ℕ → ℤ → Finset ℤ
  | 0, _ => ∅
  | n + 1, off => blockNodes K_n B_n off ∪ addedNodes K_n B_n n (off + K_n)

/-- Undirected adjacency in the embedded graph. -/
def Graph.Adj (G : Graph) (u v : ℤ) : Prop := normEdge u v ∈ G.edges

/-- Connectivity: any two nodes are joined by a walk along edges. -/
def Graph.Connected (G : Graph) : Prop :=
  ∀ u ∈ G.nodes, ∀ v ∈ G.nodes, Relation.ReflTransGen G.Adj u v

/-! ## Characterization of the built packing constraints -/

/-- A packing-constraint index is in the built model exactly when it pairs a
canonically oriented pair of distinct nodes at known distance at most i with
a color i in 1..k. -/
theorem pack_mem_iff (G : Graph) (v u : ℤ) (i : ℕ) :
    ((v, u), i) ∈ (packingModelCplex G).pack ↔
      v ∈ G.nodes ∧ u ∈ G.nodes ∧ v < u ∧ 1 ≤ i ∧ i ≤ G.numberOfNodes ∧
        ∃ d, shortest_path_length G v u = some d ∧ d ≤ i := by
  unfold packingModelCplex vertexPairs colorRange distLE
  cases h : shortest_path_length G v u with
  | none =>
    simp [Finset.mem_filter, Finset.mem_product, Finset.mem_Icc, h]
  | some d =>
    simp [Finset.mem_filter, Finset.mem_product, Finset.mem_Icc, h]
    tauto

/-- The extraction loop returns some i exactly when i is the first index at
or after the start whose value exceeds the threshold, within the range. -/
theorem firstColorAbove_eq_some (xval : ℕ → ℚ) :
    ∀ (n s i : ℕ), (firstColorAbove xval s n = some i ↔
      s ≤ i ∧ i < s + n ∧ 1 / 2 < xval i ∧ ∀ j, s ≤ j → j < i → ¬(1 / 2 < xval j)) := by
  intro n
  induction n with
  | zero => intro s i; simp [firstColorAbove]; omega
  | succ m ih =>
    intro s i
    rw [firstColorAbove]
    by_cases hs : 1 / 2 < xval s
    · simp only [if_pos hs]
      constructor
      · rintro h
        cases h
        exact ⟨le_refl s, by omega, hs, fun j h1 h2 => by omega⟩
      · rintro ⟨h1, h2, h3, h4⟩
        by_cases hi : i = s
        · exact congrArg some hi.symm
        · exact absurd hs (h4 s (le_refl s) (by omega))
    · simp only [if_neg hs]
      rw [ih (s + 1) i]
      constructor
      · rintro ⟨h1, h2, h3, h4⟩
        refine ⟨by omega, by omega, h3, fun j hj1 hj2 => ?_⟩
        by_cases hjs : j = s
        · exact hjs ▸ hs
        · exact h4 j (by omega) hj2
      · rintro ⟨h1, h2, h3, h4⟩
        have his : s ≠ i := by rintro rfl; exact hs h3
        exact ⟨by omega, by omega, h3, fun j hj1 hj2 => h4 j (by omega) hj2⟩

/-- The extraction loop returns none exactly when no value in the scanned
range exceeds the threshold. -/
theorem firstColorAbove_eq_none (xval : ℕ → ℚ) :
    ∀ (n s : ℕ), (firstColorAbove xval s n = none ↔
      ∀ j, s ≤ j → j < s + n → ¬(1 / 2 < xval j)) := by
  intro n
  induction n with
  | zero => intro s; simp [firstColorAbove]; omega
  | succ m ih =>
    intro s
    rw [firstColorAbove]
    by_cases hs : 1 / 2 < xval s
    · simp only [if_pos hs]
      constructor
      · intro h; cases h
      · intro h; exact absurd hs (h s (le_refl s) (by omega))
    · simp only [if_neg hs]
      rw [ih (s + 1)]
      constructor
      · intro h j hj1 hj2
        by_cases hjs : j = s
        · exact hjs ▸ hs
        · exact h j (by omega) (by omega)
      · intro h j hj1 hj2
        exact h j (by omega) (by omega)

/-- C3: the built model contains the packing constraint x[v,i] + x[u,i] <= 1 exactly
for every color i in 1..k (k the number of nodes) and every unordered pair of
distinct nodes (represented by its sorted orientation v < u) whose shortest-path
distance is defined and at most i; a pair with no path contributes no packing
constraint for any color. -/
theorem c3_packing_constraints_exact (G : Graph) (v u : ℤ) (i : ℕ) :
    (((v, u), i) ∈ (packingModelCplex G).pack ↔
      v ∈ G.nodes ∧ u ∈ G.nodes ∧ v < u ∧ 1 ≤ i ∧ i ≤ G.numberOfNodes ∧
        ∃ d, shortest_path_length G v u = some d ∧ d ≤ i) ∧
    (shortest_path_length G v u = none → ((v, u), i) ∉ (packingModelCplex G).pack) := by
  refine ⟨pack_mem_iff G v u i, fun h hmem => ?_⟩
  rcases (pack_mem_iff G v u i).mp hmem with ⟨-, -, -, -, -, d, hd, -⟩
  rw [h] at hd
  cases hd

/-- C10: on an Optimal outcome every vertex present in the returned color
assignment is mapped to the smallest color i in 1..k whose indicator value
exceeds the 0.5 threshold, and a vertex for which no indicator exceeds 0.5 is
silently absent from the returned mapping rather than causing an error. -/
theorem c10_extractor_first_above_threshold (G : Graph) (xval : ℤ → ℕ → ℚ) (v : ℤ) :
    (∀ i, extract_color_assignment G xval v = some i ↔
      v ∈ G.nodes ∧ 1 ≤ i ∧ i ≤ G.numberOfNodes ∧ 1 / 2 < xval v i ∧
        ∀ j, 1 ≤ j → j < i → ¬(1 / 2 < xval v j)) ∧
    (extract_color_assignment G xval v = none ↔
      v ∉ G.nodes ∨ ∀ j, 1 ≤ j → j ≤ G.numberOfNodes → ¬(1 / 2 < xval v j)) := by
  unfold extract_color_assignment
  by_cases hv : v ∈ G.nodes
  · simp only [if_pos hv]
    constructor
    · intro i
      rw [firstColorAbove_eq_some]
      constructor
      · rintro ⟨h1, h2, h3, h4⟩
        exact ⟨hv, h1, by omega, h3, h4⟩
      · rintro ⟨-, h1, h2, h3, h4⟩
        exact ⟨h1, by omega, h3, h4⟩
    · rw [firstColorAbove_eq_none]
      constructor
      · intro h
        exact Or.inr fun j hj1 hj2 => h j hj1 (by omega)
      · rintro (h | h)
        · exact absurd hv h
        · exact fun j hj1 hj2 => h j hj1 (by omega)
  · simp only [if_neg hv]
    simp [hv]

/-- C5: whenever any of the invariants B_n > 0, B_n <= K_n, or P_n mod B_n = 0
is violated, build_path_chain fails with a validation error and produces no
graph. -/
theorem c5_invariant_violation_rejected (P_n B_n K_n : ℤ)
    (h : ¬(0 < B_n) ∨ ¬(B_n ≤ K_n) ∨ P_n % B_n ≠ 0) :
    create_path_connected_k_complete_graphs P_n B_n K_n = none := by
  unfold create_path_connected_k_complete_graphs
  rw [if_neg]
  tauto

theorem c5_witness :
    ¬((7 : ℤ) % 3 = 0) ∧ create_path_connected_k_complete_graphs 7 3 5 = none ∧
    create_path_connected_k_complete_graphs 6 0 5 = none ∧
    create_path_connected_k_complete_graphs 6 6 5 = none ∧
    create_path_connected_k_complete_graphs 6 (-2) 5 = none :=
  ⟨by decide, c5_invariant_violation_rejected 7 3 5 (Or.inr (Or.inr (by decide))),
    c5_invariant_violation_rejected 6 0 5 (Or.inl (by decide)),
    c5_invariant_violation_rejected 6 6 5 (Or.inr (Or.inl (by decide))),
    c5_invariant_violation_rejected 6 (-2) 5 (Or.inl (by decide))⟩

/-- C9: for every P_n <= 0 (including P_n = 0, which satisfies the three
invariants the spec lists) the generator fails with a validation error instead
of returning an empty graph; P_n > 0 is an additional precondition beyond those
invariants. -/
theorem c9_nonpositive_pn_rejected (P_n B_n K_n : ℤ) (h : P_n ≤ 0) :
    create_path_connected_k_complete_graphs P_n B_n K_n = none := by
  unfold create_path_connected_k_complete_graphs
  rw [if_neg]
  rintro ⟨h1, -⟩
  omega

theorem c9_witness :
    ((0 : ℤ) ≤ 0 ∧ 0 < (2 : ℤ) ∧ (2 : ℤ) ≤ 3 ∧ (0 : ℤ) % 2 = 0) ∧
    create_path_connected_k_complete_graphs 0 2 3 = none :=
  ⟨by decide, c9_nonpositive_pn_rejected 0 2 3 (by decide)⟩

/-- C8: the docplex-based and the PuLP-based model builders construct the same
abstract MILP instance: the same binary variables x[v,i], the same integer
variable z with bounds 1..k, the same assignment, packing and max-color
constraint families, and the same minimize-z objective. -/
theorem c8_cplex_and_pulp_build_same_model (G : Graph) :
    packingModelCplex G = packingModelPulp G := rfl

/-- C1: for every graph G and every assignment of the model variables that
satisfies all of its constraints, any two distinct nodes whose shortest-path
distance is some d and that are both assigned the same color c satisfy d > c:
every feasible solution of the built model is a valid packing coloring of G. -/
theorem c1_feasible_solution_is_packing_coloring (G : Graph) (x : ℤ → ℕ → ℤ) (z : ℤ)
    (hf : Feasible (packingModelCplex G) x z)
    (v u : ℤ) (hv : v ∈ G.nodes) (hu : u ∈ G.nodes) (hvu : v ≠ u)
    (d : ℕ) (hd : pairDist G v u = some d)
    (c : ℕ) (hc1 : 1 ≤ c) (hck : c ≤ G.numberOfNodes)
    (hxv : x v c = 1) (hxu : x u c = 1) :
    c < d := by
  by_contra hle
  push_neg at hle
  obtain ⟨-, -, -, -, hpack, -⟩ := hf
  have hmem : ((min v u, max v u), c) ∈ (packingModelCplex G).pack := by
    apply (pack_mem_iff G (min v u) (max v u) c).mpr
    refine ⟨?_, ?_, min_lt_max.mpr hvu, hc1, hck, d, hd, hle⟩
    · rcases min_choice v u with h | h <;> rw [h] <;> assumption
    · rcases max_choice v u with h | h <;> rw [h] <;> assumption
  have hc := hpack _ hmem
  rcases le_total v u with h | h
  · rw [min_eq_left h, max_eq_right h] at hc
    rw [hxv, hxu] at hc
    omega
  · rw [min_eq_right h, max_eq_left h] at hc
    rw [hxu, hxv] at hc
    omega

theorem c1_witness :
    Feasible (packingModelCplex witnessPath3) witnessX3 2 ∧ (0 : ℤ) ≠ 2 ∧
    pairDist witnessPath3 0 2 = some 2 ∧ witnessX3 0 1 = 1 ∧ witnessX3 2 1 = 1 ∧ 1 < 2 :=
  ⟨by decide, by decide, by decide, by decide, by decide,
    c1_feasible_solution_is_packing_coloring witnessPath3 witnessX3 2 (by decide) 0 2
      (by decide) (by decide) (by decide) 2 (by decide) 1 (by decide) (by decide)
      (by decide) (by decide)⟩

/-- C6 counterexample: vertex 0 has two indicators above the threshold, yet
the extractor silently returns the color assignment 0 ↦ 1 instead of
signalling a ModelInconsistencyError; and with a solved z value of 7, which
differs from the maximum extracted color 1, the pair is returned unchanged
with no consistency failure reported. -/
theorem c6_counterexample :
    (1 / 2 < extractorExampleVals 0 1 ∧ 1 / 2 < extractorExampleVals 0 2) ∧
    extract_color_assignment extractorExampleGraph extractorExampleVals 0 = some 1 ∧
    extract_color_assignment extractorExampleGraph extractorExampleVals 1 = some 1 ∧
    (solveResultOptimal extractorExampleGraph extractorExampleVals 7).2 = 7 ∧
    (7 : ℚ) ≠ 1 := by
  have h2 : extractorExampleGraph.numberOfNodes = 2 := by decide
  refine ⟨⟨by norm_num [extractorExampleVals], by norm_num [extractorExampleVals]⟩,
    ?_, ?_, rfl, by norm_num⟩
  · unfold extract_color_assignment
    rw [if_pos (by decide : (0 : ℤ) ∈ extractorExampleGraph.nodes), h2]
    simp [firstColorAbove, extractorExampleVals]
    norm_num
  · unfold extract_color_assignment
    rw [if_pos (by decide : (1 : ℤ) ∈ extractorExampleGraph.nodes), h2]
    simp [firstColorAbove, extractorExampleVals]
    norm_num

/-- C6 amended: on an Optimal outcome the extractor performs no consistency
verification: a vertex with any indicator above the 0.5 threshold is mapped
to the smallest such color, even when several indicators exceed the
threshold, and the solved z value is returned as-is, never compared against
the extracted colors. -/
theorem c6_amended_extractor_no_consistency_checks (G : Graph) (xval : ℤ → ℕ → ℚ)
    (zval : ℚ) (v : ℤ) (i : ℕ)
    (hv : v ∈ G.nodes) (hi1 : 1 ≤ i) (hik : i ≤ G.numberOfNodes)
    (hx : 1 / 2 < xval v i) :
    (∃ c, extract_color_assignment G xval v = some c ∧ c ≤ i) ∧
    (solveResultOptimal G xval zval).2 = zval := by
  refine ⟨?_, rfl⟩
  unfold extract_color_assignment
  rw [if_pos hv]
  cases hfc : firstColorAbove (xval v) 1 G.numberOfNodes with
  | none =>
    rw [firstColorAbove_eq_none] at hfc
    exact absurd hx (hfc i hi1 (by omega))
  | some c =>
    refine ⟨c, rfl, ?_⟩
    rw [firstColorAbove_eq_some] at hfc
    obtain ⟨h1, h2, h3, h4⟩ := hfc
    by_contra hlt
    exact h4 i hi1 (by omega) hx

theorem c6_amended_witness :
    ((0 : ℤ) ∈ extractorExampleGraph.nodes ∧ 1 ≤ 2 ∧
      2 ≤ extractorExampleGraph.numberOfNodes ∧ 1 / 2 < extractorExampleVals 0 2) ∧
    (∃ c, extract_color_assignment extractorExampleGraph extractorExampleVals 0 = some c ∧
      c ≤ 2) ∧
    (solveResultOptimal extractorExampleGraph extractorExampleVals 7).2 = 7 :=
  ⟨⟨by decide, by decide, by decide, by norm_num [extractorExampleVals]⟩,
    c6_amended_extractor_no_consistency_checks extractorExampleGraph extractorExampleVals
      7 0 2 (by decide) (by decide) (by decide) (by norm_num [extractorExampleVals])⟩

theorem graph_eq_of_parts {G H : Graph} (hn : G.nodes = H.nodes)
    (he : G.edges = H.edges) : G = H := by
  cases G
  cases H
  cases hn
  cases he
  rfl

theorem create_5_5_5_eq : create_path_connected_k_complete_graphs 5 5 5 = some completeK5 := by
  have h : (pathLoop 5 5 ((5 : ℤ) / 5).toNat (Graph.empty, 0)).1 = completeK5 :=
    graph_eq_of_parts (by decide) (by decide)
  unfold create_path_connected_k_complete_graphs
  rw [if_pos (by decide)]
  exact congrArg some h

theorem k5_all_pairs_distance_one : ∀ a ∈ completeK5.nodes, ∀ b ∈ completeK5.nodes,
    a < b → shortest_path_length completeK5 a b = some 1 := by decide

theorem k5_feasible_lower (x : ℤ → ℕ → ℤ) (z : ℤ)
    (hf : Feasible (packingModelCplex completeK5) x z) : 5 ≤ z := by
  obtain ⟨hbin, hlb, hub, hone, hpack, hmax⟩ := hf
  have hk : (packingModelCplex completeK5).k = 5 := rfl
  have hnn : completeK5.numberOfNodes = 5 := rfl
  rw [hk] at hone
  -- each node has a color with indicator one
  have hcol : ∀ v ∈ completeK5.nodes, ∃ c ∈ colorRange 5, x v c = 1 := by
    intro v hv
    by_contra h
    push_neg at h
    have hzero : ∀ c ∈ colorRange 5, x v c = 0 := by
      intro c hc
      have hb := hbin (v, c) (Finset.mem_product.mpr ⟨hv, hc⟩)
      exact hb.resolve_right (h c hc)
    have := hone v hv
    rw [Finset.sum_eq_zero hzero] at this
    exact absurd this (by norm_num)
  -- two distinct nodes never share a color
  have hdist : ∀ v ∈ completeK5.nodes, ∀ u ∈ completeK5.nodes, v ≠ u →
      ∀ c ∈ colorRange 5, x v c = 1 → x u c = 1 → False := by
    intro v hv u hu hvu c hc hxv hxu
    rw [colorRange, Finset.mem_Icc] at hc
    have hminmem : min v u ∈ completeK5.nodes := by
      rcases min_choice v u with h | h <;> rw [h] <;> assumption
    have hmaxmem : max v u ∈ completeK5.nodes := by
      rcases max_choice v u with h | h <;> rw [h] <;> assumption
    have hmem : ((min v u, max v u), c) ∈ (packingModelCplex completeK5).pack := by
      apply (pack_mem_iff completeK5 (min v u) (max v u) c).mpr
      exact ⟨hminmem, hmaxmem, min_lt_max.mpr hvu, hc.1, by rw [hnn]; exact hc.2,
        1, k5_all_pairs_distance_one _ hminmem _ hmaxmem (min_lt_max.mpr hvu), hc.1⟩
    have hcle := hpack _ hmem
    rcases le_total v u with h | h
    · rw [min_eq_left h, max_eq_right h, hxv, hxu] at hcle
      omega
    · rw [min_eq_right h, max_eq_left h, hxu, hxv] at hcle
      omega
  -- some node carries color five
  have h5 : ∃ v ∈ completeK5.nodes, x v 5 = 1 := by
    by_contra h
    push_neg at h
    classical
    set f : ℤ → ℕ := fun v => if hvc : ∃ c ∈ Finset.Icc 1 4, x v c = 1 then hvc.choose else 0 with hfdef
    have hmaps : ∀ v ∈ completeK5.nodes, f v ∈ Finset.Icc 1 4 := by
      intro v hv
      obtain ⟨c, hc, hx1⟩ := hcol v hv
      rw [colorRange, Finset.mem_Icc] at hc
      have hc4 : c ∈ Finset.Icc 1 4 := by
        rw [Finset.mem_Icc]
        rcases Nat.lt_or_ge c 5 with h' | h'
        · omega
        · have h5c : c = 5 := by omega
          rw [h5c] at hx1
          exact absurd hx1 (h v hv)
      have hex : ∃ c ∈ Finset.Icc 1 4, x v c = 1 := ⟨c, hc4, hx1⟩
      rw [hfdef]
      simp only [dif_pos hex]
      exact hex.choose_spec.1
    have hval : ∀ v ∈ completeK5.nodes, x v (f v) = 1 := by
      intro v hv
      obtain ⟨c, hc, hx1⟩ := hcol v hv
      rw [colorRange, Finset.mem_Icc] at hc
      have hc4 : c ∈ Finset.Icc 1 4 := by
        rw [Finset.mem_Icc]
        rcases Nat.lt_or_ge c 5 with h' | h'
        · omega
        · have h5c : c = 5 := by omega
          rw [h5c] at hx1
          exact absurd hx1 (h v hv)
      have hex : ∃ c ∈ Finset.Icc 1 4, x v c = 1 := ⟨c, hc4, hx1⟩
      rw [hfdef]
      simp only [dif_pos hex]
      exact hex.choose_spec.2
    have hcard : (Finset.Icc 1 4).card < completeK5.nodes.card := by decide
    obtain ⟨v, hv, u, hu, hvu, heq⟩ :=
      Finset.exists_ne_map_eq_of_card_lt_of_maps_to hcard hmaps
    have hfv : f v ∈ colorRange 5 := by
      have := hmaps v hv
      rw [Finset.mem_Icc] at this
      rw [colorRange, Finset.mem_Icc]
      omega
    exact hdist v hv u hu hvu (f v) hfv (hval v hv) (heq ▸ hval u hu)
  obtain ⟨v, hv, hx5⟩ := h5
  have h5mem : (5 : ℕ) ∈ colorRange completeK5.numberOfNodes := by decide
  have hmem : (v, 5) ∈ (packingModelCplex completeK5).maxColor :=
    Finset.mem_product.mpr ⟨hv, h5mem⟩
  have := hmax (v, 5) hmem
  rw [hx5] at this
  omega

/-- C7: for the parameters P_n = 5, B_n = 5, K_n = 5 the generator returns the
complete graph on 5 vertices, and the optimal objective value of the
packing-coloring model built on that graph is 5: every feasible assignment has
z at least 5, and some feasible assignment attains z = 5. -/
theorem c7_k5_packing_chromatic_number_five :
    ∃ G, create_path_connected_k_complete_graphs 5 5 5 = some G ∧ G = completeK5 ∧
      (∀ x z, Feasible (packingModelCplex G) x z → 5 ≤ z) ∧
      (∃ x z, Feasible (packingModelCplex G) x z ∧ z = 5) :=
  ⟨completeK5, create_5_5_5_eq, rfl, k5_feasible_lower,
    ⟨fun v i => if (i : ℤ) = v + 1 then 1 else 0, 5, by decide, rfl⟩⟩

theorem mem_complete_graph_edges (n : ℕ) (e : ℤ × ℤ) :
    e ∈ complete_graph_edges n ↔ ∃ i j : ℕ, i < j ∧ j < n ∧ e = ((i : ℤ), (j : ℤ)) := by
  unfold complete_graph_edges
  rw [List.mem_flatMap]
  constructor
  · rintro ⟨i, hi, hmem⟩
    rw [List.mem_map] at hmem
    obtain ⟨j, hj, rfl⟩ := hmem
    rw [List.mem_filter, List.mem_range] at hj
    exact ⟨i, j, by simpa using hj.2, hj.1, rfl⟩
  · rintro ⟨i, j, hij, hj, rfl⟩
    refine ⟨i, by rw [List.mem_range]; omega, ?_⟩
    rw [List.mem_map]
    exact ⟨j, by rw [List.mem_filter, List.mem_range]; simpa using ⟨hj, hij⟩, rfl⟩

theorem addEdgesFrom_edges : ∀ (l : List (ℤ × ℤ)) (G : Graph),
    (G.addEdgesFrom l).edges = G.edges ∪ (l.map fun e => normEdge e.1 e.2).toFinset := by
  intro l
  induction l with
  | nil => intro G; simp [Graph.addEdgesFrom]
  | cons e t ih =>
    intro G
    show ((G.addEdge e.1 e.2).addEdgesFrom t).edges = _
    rw [ih]
    show insert (normEdge e.1 e.2) G.edges ∪ _ = _
    ext a
    simp [Finset.mem_union, Finset.mem_insert, List.mem_map]

theorem addEdgesFrom_nodes : ∀ (l : List (ℤ × ℤ)) (G : Graph),
    (G.addEdgesFrom l).nodes = G.nodes ∪ (l.flatMap fun e => [e.1, e.2]).toFinset := by
  intro l
  induction l with
  | nil => intro G; simp [Graph.addEdgesFrom]
  | cons e t ih =>
    intro G
    show ((G.addEdge e.1 e.2).addEdgesFrom t).nodes = _
    rw [ih]
    show insert e.1 (insert e.2 G.nodes) ∪ _ = _
    ext a
    simp [Finset.mem_union, Finset.mem_insert, List.mem_flatMap]

theorem mem_cliqueEdgeSet (off : ℤ) (n : ℕ) (e : ℤ × ℤ) :
    e ∈ cliqueEdgeSet off n ↔
      ∃ i j : ℕ, i < j ∧ j < n ∧ e = (off + (i : ℤ), off + (j : ℤ)) := by
  unfold cliqueEdgeSet
  simp only [Finset.mem_image, Finset.mem_filter, Finset.mem_product, Finset.mem_range]
  constructor
  · rintro ⟨⟨i, j⟩, ⟨⟨hi, hj⟩, hij⟩, rfl⟩
    exact ⟨i, j, hij, hj, rfl⟩
  · rintro ⟨i, j, hij, hj, rfl⟩
    exact ⟨⟨i, j⟩, ⟨⟨by omega, hj⟩, hij⟩, rfl⟩

theorem mem_cliqueNodeSet (off : ℤ) (n : ℕ) (v : ℤ) :
    v ∈ cliqueNodeSet off n ↔ 2 ≤ n ∧ ∃ i : ℕ, i < n ∧ v = off + (i : ℤ) := by
  unfold cliqueNodeSet
  by_cases h : n ≤ 1
  · rw [if_pos h]
    simp
    omega
  · rw [if_neg h]
    simp only [Finset.mem_image, Finset.mem_range]
    constructor
    · rintro ⟨i, hi, rfl⟩
      exact ⟨by omega, i, hi, rfl⟩
    · rintro ⟨-, i, hi, rfl⟩
      exact ⟨i, hi, rfl⟩

theorem normEdge_of_le {u v : ℤ} (h : u ≤ v) : normEdge u v = (u, v) := by
  unfold normEdge
  rw [if_pos h]

theorem clique_list_edges (off : ℤ) (n : ℕ) :
    ((relabelShift off (complete_graph_edges n)).map fun e => normEdge e.1 e.2).toFinset =
      cliqueEdgeSet off n := by
  ext a
  rw [List.mem_toFinset, mem_cliqueEdgeSet]
  simp only [List.mem_map, relabelShift]
  constructor
  · rintro ⟨e', ⟨e, he, rfl⟩, rfl⟩
    rcases (mem_complete_graph_edges n e).mp he with ⟨i, j, hij, hj, rfl⟩
    refine ⟨i, j, hij, hj, ?_⟩
    rw [normEdge_of_le (by simp; omega)]
    simp [Prod.ext_iff]
    constructor <;> ring
  · rintro ⟨i, j, hij, hj, rfl⟩
    refine ⟨((i : ℤ) + off, (j : ℤ) + off), ⟨((i : ℤ), (j : ℤ)), ?_, rfl⟩, ?_⟩
    · exact (mem_complete_graph_edges n _).mpr ⟨i, j, hij, hj, rfl⟩
    · rw [normEdge_of_le (by simp; omega)]
      simp [Prod.ext_iff]
      constructor <;> ring

theorem clique_list_nodes (off : ℤ) (n : ℕ) :
    ((relabelShift off (complete_graph_edges n)).flatMap fun e => [e.1, e.2]).toFinset =
      cliqueNodeSet off n := by
  ext v
  rw [List.mem_toFinset, mem_cliqueNodeSet]
  simp only [List.mem_flatMap, List.mem_map, relabelShift]
  constructor
  · rintro ⟨e', ⟨e, he, rfl⟩, hv⟩
    rcases (mem_complete_graph_edges n e).mp he with ⟨i, j, hij, hj, rfl⟩
    simp only [List.mem_cons, List.not_mem_nil, or_false] at hv
    rcases hv with rfl | rfl
    · exact ⟨by omega, i, by omega, by ring⟩
    · exact ⟨by omega, j, hj, by ring⟩
  · rintro ⟨h2, i, hi, rfl⟩
    by_cases hlast : i + 1 < n
    · refine ⟨((i : ℤ) + off, ((i + 1 : ℕ) : ℤ) + off),
        ⟨((i : ℤ), ((i + 1 : ℕ) : ℤ)), ?_, rfl⟩, ?_⟩
      · exact (mem_complete_graph_edges n _).mpr ⟨i, i + 1, by omega, hlast, rfl⟩
      · simp only [List.mem_cons, List.not_mem_nil, or_false]
        left
        ring
    · refine ⟨(((0 : ℕ) : ℤ) + off, (i : ℤ) + off),
        ⟨(((0 : ℕ) : ℤ), (i : ℤ)), ?_, rfl⟩, ?_⟩
      · exact (mem_complete_graph_edges n _).mpr ⟨0, i, by omega, hi, rfl⟩
      · simp only [List.mem_cons, List.not_mem_nil, or_false]
        right
        ring

theorem blockStep_eq {K_n B_n : ℤ} (hBK : B_n ≤ K_n) (G : Graph) (off : ℤ) :
    blockStep K_n B_n (G, off) =
      (⟨G.nodes ∪ blockNodes K_n B_n off, G.edges ∪ blockEdges K_n B_n off⟩, off + K_n) := by
  show ((if off = 0 then G.addEdgesFrom (relabelShift off (complete_graph_edges K_n.toNat))
      else (G.addEdgesFrom
        (relabelShift off (complete_graph_edges K_n.toNat))).addEdge (off - (K_n - B_n + 1)) off),
      off + K_n) = _
  by_cases h0 : off = 0
  · rw [if_pos h0]
    congr 1
    apply graph_eq_of_parts
    · rw [addEdgesFrom_nodes, clique_list_nodes]
      unfold blockNodes
      rw [if_pos h0]
      simp
    · rw [addEdgesFrom_edges, clique_list_edges]
      unfold blockEdges
      rw [if_pos h0]
      simp
  · rw [if_neg h0]
    congr 1
    apply graph_eq_of_parts
    · show insert (off - (K_n - B_n + 1)) (insert off
        (G.addEdgesFrom (relabelShift off (complete_graph_edges K_n.toNat))).nodes) = _
      rw [addEdgesFrom_nodes, clique_list_nodes]
      unfold blockNodes chainSrc
      rw [if_neg h0]
      ext a
      simp only [Finset.mem_insert, Finset.mem_union, Finset.mem_singleton]
      tauto
    · show insert (normEdge (off - (K_n - B_n + 1)) off)
        (G.addEdgesFrom (relabelShift off (complete_graph_edges K_n.toNat))).edges = _
      rw [addEdgesFrom_edges, clique_list_edges,
        normEdge_of_le (show off - (K_n - B_n + 1) ≤ off by omega)]
      unfold blockEdges chainSrc
      rw [if_neg h0]
      ext a
      simp only [Finset.mem_insert, Finset.mem_union, Finset.mem_singleton]
      tauto

theorem pathLoop_eq {K_n B_n : ℤ} (hBK : B_n ≤ K_n) :
    ∀ (n : ℕ) (G : Graph) (off : ℤ),
      pathLoop K_n B_n n (G, off) =
        (⟨G.nodes ∪ addedNodes K_n B_n n off, G.edges ∪ addedEdges K_n B_n n off⟩,
          off + n * K_n) := by
  intro n
  induction n with
  | zero =>
    intro G off
    show (G, off) = _
    simp [addedNodes, addedEdges]
  | succ m ih =>
    intro G off
    show pathLoop K_n B_n m (blockStep K_n B_n (G, off)) = _
    rw [blockStep_eq hBK, ih]
    congr 1
    · apply graph_eq_of_parts
      · show (G.nodes ∪ blockNodes K_n B_n off) ∪ addedNodes K_n B_n m (off + K_n) = _
        rw [Finset.union_assoc]
        rfl
      · show (G.edges ∪ blockEdges K_n B_n off) ∪ addedEdges K_n B_n m (off + K_n) = _
        rw [Finset.union_assoc]
        rfl
    · push_cast
      ring

theorem mem_addedEdges {K_n B_n : ℤ} :
    ∀ (n : ℕ) (off : ℤ) (e : ℤ × ℤ),
      e ∈ addedEdges K_n B_n n off ↔
        ∃ j : ℕ, j < n ∧
          (e ∈ cliqueEdgeSet (off + (j : ℤ) * K_n) K_n.toNat ∨
            (off + (j : ℤ) * K_n ≠ 0 ∧
              e = (chainSrc K_n B_n (off + (j : ℤ) * K_n), off + (j : ℤ) * K_n))) := by
  intro n
  induction n with
  | zero =>
    intro off e
    simp [addedEdges]
  | succ m ih =>
    intro off e
    show e ∈ blockEdges K_n B_n off ∪ addedEdges K_n B_n m (off + K_n) ↔ _
    rw [Finset.mem_union, ih]
    unfold blockEdges
    rw [Finset.mem_union]
    constructor
    · rintro ((hcl | hch) | ⟨j, hj, hrest⟩)
      · exact ⟨0, by omega, Or.inl (by simpa using hcl)⟩
      · by_cases h0 : off = 0
        · rw [if_pos h0] at hch
          cases hch
        · rw [if_neg h0] at hch
          rw [Finset.mem_singleton] at hch
          exact ⟨0, by omega, Or.inr ⟨by simpa using h0, by simpa using hch⟩⟩
      · refine ⟨j + 1, by omega, ?_⟩
        have harith : off + K_n + (j : ℤ) * K_n = off + ((j + 1 : ℕ) : ℤ) * K_n := by
          push_cast
          ring
        rw [harith] at hrest
        exact hrest
    · rintro ⟨j, hj, hrest⟩
      cases j with
      | zero =>
        simp only [Nat.cast_zero, zero_mul, add_zero] at hrest
        rcases hrest with hcl | ⟨h0, hch⟩
        · exact Or.inl (Or.inl hcl)
        · refine Or.inl (Or.inr ?_)
          rw [if_neg h0, Finset.mem_singleton]
          exact hch
      | succ i =>
        refine Or.inr ⟨i, by omega, ?_⟩
        have harith : off + K_n + (i : ℤ) * K_n = off + ((i + 1 : ℕ) : ℤ) * K_n := by
          push_cast
          ring
        rw [harith]
        exact hrest

theorem mem_addedNodes {K_n B_n : ℤ} :
    ∀ (n : ℕ) (off : ℤ) (v : ℤ),
      v ∈ addedNodes K_n B_n n off ↔
        ∃ j : ℕ, j < n ∧
          (v ∈ cliqueNodeSet (off + (j : ℤ) * K_n) K_n.toNat ∨
            (off + (j : ℤ) * K_n ≠ 0 ∧
              (v = chainSrc K_n B_n (off + (j : ℤ) * K_n) ∨ v = off + (j : ℤ) * K_n))) := by
  intro n
  induction n with
  | zero =>
    intro off v
    simp [addedNodes]
  | succ m ih =>
    intro off v
    show v ∈ blockNodes K_n B_n off ∪ addedNodes K_n B_n m (off + K_n) ↔ _
    rw [Finset.mem_union, ih]
    unfold blockNodes
    rw [Finset.mem_union]
    constructor
    · rintro ((hcl | hch) | ⟨j, hj, hrest⟩)
      · exact ⟨0, by omega, Or.inl (by simpa using hcl)⟩
      · by_cases h0 : off = 0
        · rw [if_pos h0] at hch
          cases hch
        · rw [if_neg h0] at hch
          rw [Finset.mem_insert, Finset.mem_singleton] at hch
          exact ⟨0, by omega, Or.inr ⟨by simpa using h0, by simpa using hch⟩⟩
      · refine ⟨j + 1, by omega, ?_⟩
        have harith : off + K_n + (j : ℤ) * K_n = off + ((j + 1 : ℕ) : ℤ) * K_n := by
          push_cast
          ring
        rw [harith] at hrest
        exact hrest
    · rintro ⟨j, hj, hrest⟩
      cases j with
      | zero =>
        simp only [Nat.cast_zero, zero_mul, add_zero] at hrest
        rcases hrest with hcl | ⟨h0, hch⟩
        · exact Or.inl (Or.inl hcl)
        · refine Or.inl (Or.inr ?_)
          rw [if_neg h0, Finset.mem_insert, Finset.mem_singleton]
          exact hch
      | succ i =>
        refine Or.inr ⟨i, by omega, ?_⟩
        have harith : off + K_n + (i : ℤ) * K_n = off + ((i + 1 : ℕ) : ℤ) * K_n := by
          push_cast
          ring
        rw [harith]
        exact hrest

theorem triangle_card : ∀ n : ℕ,
    ((Finset.range n ×ˢ Finset.range n).filter fun p => p.1 < p.2).card = n.choose 2 := by
  intro n
  induction n with
  | zero => simp
  | succ m ih =>
    have hsplit : ((Finset.range (m + 1) ×ˢ Finset.range (m + 1)).filter fun p => p.1 < p.2) =
        ((Finset.range m ×ˢ Finset.range m).filter fun p => p.1 < p.2) ∪
          (Finset.range m).image fun i => (i, m) := by
      ext ⟨a, b⟩
      simp only [Finset.mem_filter, Finset.mem_product, Finset.mem_range, Finset.mem_union,
        Finset.mem_image, Prod.mk.injEq]
      constructor
      · rintro ⟨⟨ha, hb⟩, hab⟩
        by_cases hbm : b = m
        · exact Or.inr ⟨a, by omega, rfl, hbm.symm⟩
        · exact Or.inl ⟨⟨by omega, by omega⟩, hab⟩
      · rintro (⟨⟨ha, hb⟩, hab⟩ | ⟨i, hi, rfl, rfl⟩)
        · exact ⟨⟨by omega, by omega⟩, hab⟩
        · exact ⟨⟨by omega, by omega⟩, hi⟩
    have hdisj : Disjoint
        ((Finset.range m ×ˢ Finset.range m).filter fun p => p.1 < p.2)
        ((Finset.range m).image fun i => (i, m)) := by
      rw [Finset.disjoint_right]
      rintro ⟨a, b⟩ hmem hmem'
      rw [Finset.mem_image] at hmem
      obtain ⟨i, hi, heq⟩ := hmem
      cases heq
      have h2 := (Finset.mem_product.mp (Finset.mem_filter.mp hmem').1).2
      rw [Finset.mem_range] at h2
      exact absurd h2 (lt_irrefl m)
    have hinj : Function.Injective fun i : ℕ => ((i, m) : ℕ × ℕ) := by
      intro a b hab
      simpa using congrArg Prod.fst hab
    have hcs : (m + 1).choose 2 = m.choose 1 + m.choose 2 := Nat.choose_succ_succ m 1
    rw [hsplit, Finset.card_union_of_disjoint hdisj, ih, Finset.card_image_of_injective _ hinj,
      Finset.card_range, hcs, Nat.choose_one_right]
    omega

theorem card_cliqueEdgeSet (off : ℤ) (n : ℕ) : (cliqueEdgeSet off n).card = n.choose 2 := by
  unfold cliqueEdgeSet
  have hinj : Function.Injective
      (fun p : ℕ × ℕ => ((off + (p.1 : ℤ), off + (p.2 : ℤ)) : ℤ × ℤ)) := by
    rintro ⟨a, b⟩ ⟨c, d⟩ h
    simp only [Prod.mk.injEq] at h
    obtain ⟨h1, h2⟩ := h
    have hac : a = c := by
      have := congrArg (fun t : ℤ => t - off) (congrArg id h1)
      simp at this
      exact_mod_cast this
    have hbd : b = d := by
      have := congrArg (fun t : ℤ => t - off) (congrArg id h2)
      simp at this
      exact_mod_cast this
    subst hac
    subst hbd
    rfl
  rw [Finset.card_image_of_injective _ hinj, triangle_card]

theorem addedEdges_snd_bounds {K_n B_n : ℤ} (hK : 1 ≤ K_n) (hBK : B_n ≤ K_n) :
    ∀ (n : ℕ) (off : ℤ) (e : ℤ × ℤ), e ∈ addedEdges K_n B_n n off →
      off ≤ e.2 ∧ e.1 < e.2 := by
  intro n off e hmem
  rw [mem_addedEdges] at hmem
  obtain ⟨j, hj, hcl | ⟨h0, rfl⟩⟩ := hmem
  · rw [mem_cliqueEdgeSet] at hcl
    obtain ⟨i1, i2, h12, h2K, rfl⟩ := hcl
    have hjK : 0 ≤ (j : ℤ) * K_n := mul_nonneg (by positivity) (by linarith)
    constructor
    · dsimp only
      have h1 : (0 : ℤ) ≤ (i2 : ℤ) := Nat.cast_nonneg i2
      linarith
    · dsimp only
      have h1 : (i1 : ℤ) < (i2 : ℤ) := by exact_mod_cast h12
      linarith
  · have hjK : 0 ≤ (j : ℤ) * K_n := mul_nonneg (by positivity) (by linarith)
    constructor
    · dsimp only
      linarith
    · unfold chainSrc
      dsimp only
      linarith

theorem blockEdges_snd_ub {K_n B_n : ℤ} (hK : 1 ≤ K_n) (off : ℤ) (e : ℤ × ℤ)
    (hmem : e ∈ blockEdges K_n B_n off) : e.2 < off + K_n := by
  have hcast : ((K_n.toNat : ℕ) : ℤ) = K_n := Int.toNat_of_nonneg (by linarith)
  unfold blockEdges at hmem
  rw [Finset.mem_union] at hmem
  rcases hmem with hcl | hch
  · rw [mem_cliqueEdgeSet] at hcl
    obtain ⟨i1, i2, h12, h2K, rfl⟩ := hcl
    dsimp only
    have h1 : (i2 : ℤ) < K_n := by
      rw [← hcast]
      exact_mod_cast h2K
    linarith
  · by_cases h0 : off = 0
    · rw [if_pos h0] at hch
      cases hch
    · rw [if_neg h0, Finset.mem_singleton] at hch
      rw [hch]
      dsimp only
      linarith

theorem card_blockEdges {K_n B_n : ℤ} (hK : 1 ≤ K_n) (hBK : B_n ≤ K_n) (off : ℤ)
    (h0 : off ≠ 0) :
    (blockEdges K_n B_n off).card = K_n.toNat.choose 2 + 1 := by
  unfold blockEdges
  rw [if_neg h0]
  rw [Finset.union_comm, ← Finset.insert_eq, Finset.card_insert_of_not_mem, card_cliqueEdgeSet]
  intro hmem
  rw [mem_cliqueEdgeSet] at hmem
  obtain ⟨i1, i2, h12, h2K, heq⟩ := hmem
  have h2 := congrArg Prod.snd heq
  dsimp only at h2
  have h1 : (0 : ℤ) < (i2 : ℤ) := by exact_mod_cast Nat.lt_of_le_of_lt (Nat.zero_le i1) h12
  linarith [h2.le, h2.ge]

theorem card_blockEdges_zero {K_n B_n : ℤ} :
    (blockEdges K_n B_n 0).card = K_n.toNat.choose 2 := by
  unfold blockEdges
  rw [if_pos rfl, Finset.union_empty, card_cliqueEdgeSet]

theorem block_disjoint_added {K_n B_n : ℤ} (hK : 1 ≤ K_n) (hBK : B_n ≤ K_n)
    (n : ℕ) (off : ℤ) :
    Disjoint (blockEdges K_n B_n off) (addedEdges K_n B_n n (off + K_n)) := by
  rw [Finset.disjoint_right]
  intro e hadd hblk
  have h1 := (addedEdges_snd_bounds hK hBK n (off + K_n) e hadd).1
  have h2 := blockEdges_snd_ub hK off e hblk
  linarith

theorem card_addedEdges_pos {K_n B_n : ℤ} (hK : 1 ≤ K_n) (hBK : B_n ≤ K_n) :
    ∀ (n : ℕ) (off : ℤ), 1 ≤ off →
      (addedEdges K_n B_n n off).card = n * K_n.toNat.choose 2 + n := by
  intro n
  induction n with
  | zero => intro off hoff; simp [addedEdges]
  | succ m ih =>
    intro off hoff
    show (blockEdges K_n B_n off ∪ addedEdges K_n B_n m (off + K_n)).card = _
    rw [Finset.card_union_of_disjoint (block_disjoint_added hK hBK m off),
      card_blockEdges hK hBK off (by linarith), ih (off + K_n) (by linarith)]
    ring

theorem card_addedEdges_main {K_n B_n : ℤ} (hK : 1 ≤ K_n) (hBK : B_n ≤ K_n) :
    ∀ m : ℕ, 1 ≤ m →
      (addedEdges K_n B_n m 0).card = m * K_n.toNat.choose 2 + (m - 1) := by
  intro m hm
  obtain ⟨n, rfl⟩ : ∃ n, m = n + 1 := ⟨m - 1, by omega⟩
  show (blockEdges K_n B_n 0 ∪ addedEdges K_n B_n n (0 + K_n)).card = _
  rw [Finset.card_union_of_disjoint (block_disjoint_added hK hBK n 0),
    card_blockEdges_zero, card_addedEdges_pos hK hBK n (0 + K_n) (by linarith)]
  ring_nf
  omega

theorem cliqueNodeSet_eq_Ico {K_n : ℤ} (h2 : 2 ≤ K_n) (off : ℤ) :
    cliqueNodeSet off K_n.toNat = Finset.Ico off (off + K_n) := by
  have hcast : ((K_n.toNat : ℕ) : ℤ) = K_n := Int.toNat_of_nonneg (by linarith)
  ext v
  rw [mem_cliqueNodeSet, Finset.mem_Ico]
  constructor
  · rintro ⟨-, i, hi, rfl⟩
    have h1 : (i : ℤ) < K_n := by
      rw [← hcast]
      exact_mod_cast hi
    have h0 : (0 : ℤ) ≤ (i : ℤ) := Nat.cast_nonneg i
    constructor <;> linarith
  · rintro ⟨h1, h2'⟩
    refine ⟨by omega, (v - off).toNat, ?_, ?_⟩
    · omega
    · omega

theorem blockNodes_pos {K_n B_n : ℤ} (hB : 1 ≤ B_n) (hBK : B_n ≤ K_n) (h2 : 2 ≤ K_n)
    (off : ℤ) (h0 : off ≠ 0) :
    blockNodes K_n B_n off =
      insert (off - (K_n - B_n + 1)) (Finset.Ico off (off + K_n)) := by
  unfold blockNodes chainSrc
  rw [cliqueNodeSet_eq_Ico h2, if_neg h0]
  ext v
  simp only [Finset.mem_union, Finset.mem_insert, Finset.mem_singleton, Finset.mem_Ico]
  constructor
  · rintro (h | h | h) <;> omega
  · rintro (h | h) <;> omega

theorem blockNodes_zero {K_n B_n : ℤ} (h2 : 2 ≤ K_n) :
    blockNodes K_n B_n 0 = Finset.Ico 0 K_n := by
  unfold blockNodes
  rw [cliqueNodeSet_eq_Ico h2, if_pos rfl, Finset.union_empty, zero_add]

theorem addedNodes_pos {K_n B_n : ℤ} (hB : 1 ≤ B_n) (hBK : B_n ≤ K_n) (h2 : 2 ≤ K_n) :
    ∀ (n : ℕ), 1 ≤ n → ∀ off : ℤ, 1 ≤ off →
      addedNodes K_n B_n n off =
        insert (off - (K_n - B_n + 1)) (Finset.Ico off (off + (n : ℤ) * K_n)) := by
  intro n
  induction n with
  | zero => intro h; cases h
  | succ m ih =>
    intro hn1 off hoff
    show blockNodes K_n B_n off ∪ addedNodes K_n B_n m (off + K_n) = _
    by_cases hm : m = 0
    · subst hm
      show blockNodes K_n B_n off ∪ ∅ = _
      rw [Finset.union_empty, blockNodes_pos hB hBK h2 off (by omega)]
      norm_num
    · rw [ih (by omega) (off + K_n) (by linarith),
        blockNodes_pos hB hBK h2 off (by omega)]
      rw [Finset.insert_union, Finset.union_insert]
      have habsorb : (off + K_n - (K_n - B_n + 1)) ∈
          Finset.Ico off (off + K_n) ∪ Finset.Ico (off + K_n) (off + K_n + (m : ℤ) * K_n) := by
        rw [Finset.mem_union]
        left
        rw [Finset.mem_Ico]
        constructor <;> linarith
      rw [Finset.insert_eq_self.mpr habsorb]
      have hmK : 0 ≤ (m : ℤ) * K_n := mul_nonneg (Nat.cast_nonneg m) (by linarith)
      rw [Finset.Ico_union_Ico_eq_Ico (by linarith) (by linarith)]
      have harith : off + K_n + (m : ℤ) * K_n = off + ((m + 1 : ℕ) : ℤ) * K_n := by
        push_cast
        ring
      rw [harith]

theorem addedNodes_main {K_n B_n : ℤ} (hB : 1 ≤ B_n) (hBK : B_n ≤ K_n) (h2 : 2 ≤ K_n) :
    ∀ n : ℕ, addedNodes K_n B_n (n + 1) 0 = Finset.Ico 0 (((n + 1 : ℕ) : ℤ) * K_n) := by
  intro n
  show blockNodes K_n B_n 0 ∪ addedNodes K_n B_n n (0 + K_n) = _
  rw [blockNodes_zero h2, zero_add]
  by_cases hn : n = 0
  · subst hn
    show Finset.Ico 0 K_n ∪ ∅ = _
    rw [Finset.union_empty]
    norm_num
  · rw [addedNodes_pos hB hBK h2 n (by omega) K_n (by linarith)]
    rw [Finset.union_insert]
    have habsorb : (K_n - (K_n - B_n + 1)) ∈
        Finset.Ico 0 K_n ∪ Finset.Ico K_n (K_n + (n : ℤ) * K_n) := by
      rw [Finset.mem_union]
      left
      rw [Finset.mem_Ico]
      constructor <;> linarith
    rw [Finset.insert_eq_self.mpr habsorb]
    have hmK : 0 ≤ (n : ℤ) * K_n := mul_nonneg (Nat.cast_nonneg n) (by linarith)
    rw [Finset.Ico_union_Ico_eq_Ico (by linarith) (by linarith)]
    have harith : K_n + (n : ℤ) * K_n = ((n + 1 : ℕ) : ℤ) * K_n := by
      push_cast
      ring
    rw [harith]

theorem cliqueNodeSet_one (off : ℤ) : cliqueNodeSet off 1 = ∅ := by
  unfold cliqueNodeSet
  rw [if_pos (le_refl 1)]

theorem blockNodes_one (off : ℤ) (h0 : off ≠ 0) :
    blockNodes 1 1 off = {off - 1, off} := by
  unfold blockNodes chainSrc
  show cliqueNodeSet off (1 : ℤ).toNat ∪ _ = _
  rw [show ((1 : ℤ)).toNat = 1 from rfl, cliqueNodeSet_one, if_neg h0, Finset.empty_union]
  norm_num

theorem addedNodes_one_pos :
    ∀ (n : ℕ), 1 ≤ n → ∀ off : ℤ, 1 ≤ off →
      addedNodes 1 1 n off = Finset.Ico (off - 1) (off + (n : ℤ)) := by
  intro n
  induction n with
  | zero => intro h; cases h
  | succ m ih =>
    intro hn1 off hoff
    show blockNodes 1 1 off ∪ addedNodes 1 1 m (off + 1) = _
    by_cases hm : m = 0
    · subst hm
      show blockNodes 1 1 off ∪ ∅ = _
      rw [Finset.union_empty, blockNodes_one off (by omega)]
      ext v
      simp only [Finset.mem_insert, Finset.mem_singleton, Finset.mem_Ico]
      push_cast
      omega
    · rw [ih (by omega) (off + 1) (by omega), blockNodes_one off (by omega)]
      ext v
      simp only [Finset.mem_insert, Finset.mem_singleton, Finset.mem_union, Finset.mem_Ico]
      push_cast
      omega

theorem addedNodes_one_main :
    ∀ n : ℕ, 1 ≤ n →
      addedNodes 1 1 (n + 1) 0 = Finset.Ico (0 : ℤ) (((n + 1 : ℕ) : ℤ)) := by
  intro n hn
  show blockNodes 1 1 0 ∪ addedNodes 1 1 n (0 + 1) = _
  have hb0 : blockNodes 1 1 0 = ∅ := by
    unfold blockNodes
    show cliqueNodeSet 0 (1 : ℤ).toNat ∪ _ = _
    rw [show ((1 : ℤ)).toNat = 1 from rfl, cliqueNodeSet_one, if_pos rfl,
      Finset.empty_union]
  rw [hb0, Finset.empty_union, addedNodes_one_pos n hn (0 + 1) (by omega)]
  ext v
  simp only [Finset.mem_Ico]
  push_cast
  omega

theorem addedNodes_one_single : addedNodes 1 1 1 0 = ∅ := by
  show blockNodes 1 1 0 ∪ addedNodes 1 1 0 1 = _
  unfold blockNodes
  show (cliqueNodeSet 0 (1 : ℤ).toNat ∪ _) ∪ _ = _
  rw [show ((1 : ℤ)).toNat = 1 from rfl, cliqueNodeSet_one, if_pos rfl,
    Finset.empty_union, Finset.empty_union]
  rfl

theorem normEdge_comm (u v : ℤ) : normEdge u v = normEdge v u := by
  unfold normEdge
  rcases le_total u v with h | h
  · rw [if_pos h]
    by_cases h' : v ≤ u
    · rw [if_pos h']
      have : u = v := le_antisymm h h'
      rw [this]
    · rw [if_neg h']
  · rw [if_pos h]
    by_cases h' : u ≤ v
    · rw [if_pos h']
      have : u = v := le_antisymm h' h
      rw [this]
    · rw [if_neg h']

theorem adj_symm (G : Graph) : Symmetric G.Adj := by
  intro u v h
  unfold Graph.Adj at h ⊢
  rwa [normEdge_comm]

theorem pathChain_connected {K_n B_n : ℤ} (hB : 1 ≤ B_n) (hBK : B_n ≤ K_n)
    (m : ℕ) (hm : 1 ≤ m) (G : Graph)
    (hedges : G.edges = addedEdges K_n B_n m 0)
    (hnodes : G.nodes = Finset.Ico 0 ((m : ℤ) * K_n)) :
    G.Connected := by
  have hK : 1 ≤ K_n := le_trans hB hBK
  have hKcast : ((K_n.toNat : ℕ) : ℤ) = K_n := Int.toNat_of_nonneg (by linarith)
  -- adjacency along a clique edge inside block j
  have hadj_clique : ∀ j : ℕ, j < m → ∀ i1 i2 : ℕ, i1 < i2 → i2 < K_n.toNat →
      G.Adj ((j : ℤ) * K_n + (i1 : ℤ)) ((j : ℤ) * K_n + (i2 : ℤ)) := by
    intro j hj i1 i2 h12 h2K
    unfold Graph.Adj
    rw [hedges, mem_addedEdges]
    refine ⟨j, hj, Or.inl ?_⟩
    rw [mem_cliqueEdgeSet]
    refine ⟨i1, i2, h12, h2K, ?_⟩
    have h12' : (i1 : ℤ) ≤ (i2 : ℤ) := by exact_mod_cast le_of_lt h12
    rw [normEdge_of_le (by linarith)]
    rw [Prod.mk.injEq]
    constructor <;> ring
  -- adjacency along the chain edge into block j
  have hadj_chain : ∀ j : ℕ, j < m → j ≠ 0 →
      G.Adj ((j : ℤ) * K_n - (K_n - B_n + 1)) ((j : ℤ) * K_n) := by
    intro j hj hj0
    have hjpos : (0 : ℤ) < (j : ℤ) * K_n := by
      have h1 : (1 : ℤ) ≤ (j : ℤ) := by exact_mod_cast Nat.one_le_iff_ne_zero.mpr hj0
      nlinarith
    unfold Graph.Adj
    rw [hedges, mem_addedEdges]
    refine ⟨j, hj, Or.inr ⟨by simp only [zero_add]; linarith, ?_⟩⟩
    unfold chainSrc
    rw [normEdge_of_le (by linarith)]
    rw [Prod.mk.injEq]
    constructor
    · simp only [zero_add]
    · simp only [zero_add]
  -- the block anchors are reachable from vertex 0
  have hanchor : ∀ j : ℕ, j < m → Relation.ReflTransGen G.Adj 0 ((j : ℤ) * K_n) := by
    intro j
    induction j with
    | zero =>
      intro hj0
      rw [Nat.cast_zero, zero_mul]
    | succ i ih =>
      intro hi1
      have h1 : Relation.ReflTransGen G.Adj 0 ((i : ℤ) * K_n) := ih (by omega)
      have hsrc : ((i + 1 : ℕ) : ℤ) * K_n - (K_n - B_n + 1) = (i : ℤ) * K_n + B_n - 1 := by
        push_cast
        ring
      have hstep2 : G.Adj ((i : ℤ) * K_n + B_n - 1) (((i + 1 : ℕ) : ℤ) * K_n) := by
        have h := hadj_chain (i + 1) hi1 (Nat.succ_ne_zero i)
        rwa [hsrc] at h
      by_cases hB1 : B_n = 1
      · have hmid : (i : ℤ) * K_n + B_n - 1 = (i : ℤ) * K_n := by
          rw [hB1]
          ring
        rw [hmid] at hstep2
        exact h1.tail hstep2
      · have hstep1 : G.Adj ((i : ℤ) * K_n) ((i : ℤ) * K_n + B_n - 1) := by
          have hBtoNat : (((B_n - 1).toNat : ℕ) : ℤ) = B_n - 1 :=
            Int.toNat_of_nonneg (by omega)
          have h := hadj_clique i (by omega) 0 (B_n - 1).toNat (by omega) (by omega)
          rw [Nat.cast_zero, add_zero, hBtoNat] at h
          have harr : (i : ℤ) * K_n + (B_n - 1) = (i : ℤ) * K_n + B_n - 1 := by ring
          rwa [harr] at h
        exact (h1.tail hstep1).tail hstep2
  -- every node is reachable from vertex 0
  have hreach : ∀ v ∈ G.nodes, Relation.ReflTransGen G.Adj 0 v := by
    intro v hv
    rw [hnodes, Finset.mem_Ico] at hv
    obtain ⟨hv0, hvm⟩ := hv
    have hKne : K_n ≠ 0 := by omega
    have hr0 : 0 ≤ v % K_n := Int.emod_nonneg v hKne
    have hrK : v % K_n < K_n := Int.emod_lt_of_pos v (by omega)
    have hq0 : 0 ≤ v / K_n := Int.ediv_nonneg hv0 (by omega)
    have hdecomp : K_n * (v / K_n) + v % K_n = v := Int.ediv_add_emod v K_n
    have hqm : v / K_n < (m : ℤ) := by
      by_contra hcon
      push_neg at hcon
      have : (m : ℤ) * K_n ≤ (v / K_n) * K_n :=
        mul_le_mul_of_nonneg_right hcon (by omega)
      nlinarith
    have hqcast : (((v / K_n).toNat : ℕ) : ℤ) = v / K_n := Int.toNat_of_nonneg hq0
    have hjm : (v / K_n).toNat < m := by omega
    have hanch := hanchor (v / K_n).toNat hjm
    rw [hqcast] at hanch
    by_cases hr : v % K_n = 0
    · have hveq : v = (v / K_n) * K_n := by rw [mul_comm] at hdecomp; omega
      rw [← hveq] at hanch
      exact hanch
    · have hrtoNat : (((v % K_n).toNat : ℕ) : ℤ) = v % K_n := Int.toNat_of_nonneg hr0
      have hstep := hadj_clique (v / K_n).toNat hjm 0 (v % K_n).toNat (by omega) (by omega)
      rw [Nat.cast_zero, add_zero, hqcast, hrtoNat] at hstep
      have hveq : (v / K_n) * K_n + v % K_n = v := by rw [mul_comm] at hdecomp; omega
      rw [hveq] at hstep
      exact hanch.tail hstep
  intro u hu v hv
  exact Relation.ReflTransGen.trans
    ((Relation.ReflTransGen.symmetric (adj_symm G)) (hreach u hu)) (hreach v hv)

/-- C2 counterexample: the triple (1,1,1) is valid for the claim (B_n > 0,
B_n <= K_n, P_n divisible by B_n) yet the generator returns the empty graph
with 0 vertices instead of the claimed (P_n/B_n)*K_n = 1 vertex. -/
theorem c2_counterexample :
    ((0 : ℤ) < 1 ∧ (0 : ℤ) < 1 ∧ (1 : ℤ) ≤ 1 ∧ (1 : ℤ) % 1 = 0) ∧
    (create_path_connected_k_complete_graphs 1 1 1).map Graph.numberOfNodes = some 0 ∧
    ((1 : ℤ) / 1).toNat * (1 : ℤ).toNat = 1 ∧ (0 : ℕ) ≠ 1 := by
  refine ⟨by norm_num, ?_, by norm_num, by norm_num⟩
  rfl

/-- C2 amended: for every valid triple with P_n > 0 except K_n = 1 with
P_n = B_n, build_path_chain returns a connected graph with exactly
(P_n/B_n)*K_n vertices and (P_n/B_n)*C(K_n,2) + (P_n/B_n - 1) edges. -/
theorem c2_amended_path_chain_shape (P_n B_n K_n : ℤ)
    (hP : 0 < P_n) (hB : 0 < B_n) (hBK : B_n ≤ K_n) (hmod : P_n % B_n = 0)
    (hx : ¬(K_n = 1 ∧ P_n = B_n)) :
    ∃ G, create_path_connected_k_complete_graphs P_n B_n K_n = some G ∧
      G.numberOfNodes = (P_n / B_n).toNat * K_n.toNat ∧
      G.numberOfEdges = (P_n / B_n).toNat * K_n.toNat.choose 2 + ((P_n / B_n).toNat - 1) ∧
      G.Connected := by
  have hK : 1 ≤ K_n := by omega
  have hdvd : B_n ∣ P_n := Int.dvd_of_emod_eq_zero hmod
  have hBP : B_n ≤ P_n := Int.le_of_dvd hP hdvd
  have hq1 : 1 ≤ P_n / B_n := by
    rw [Int.le_ediv_iff_mul_le (by omega)]
    omega
  obtain ⟨m, hmdef⟩ : ∃ m : ℕ, (P_n / B_n).toNat = m := ⟨_, rfl⟩
  have hm1 : 1 ≤ m := by omega
  have hmcast : ((m : ℕ) : ℤ) = P_n / B_n := by
    rw [← hmdef]
    exact Int.toNat_of_nonneg (by omega)
  have hPBm : P_n = B_n * (m : ℤ) := by
    rw [hmcast]
    exact (Int.mul_ediv_cancel' hdvd).symm
  obtain ⟨G, off, hGoff⟩ : ∃ G off, pathLoop K_n B_n m (Graph.empty, 0) = (G, off) :=
    ⟨_, _, rfl⟩
  have hloop := pathLoop_eq hBK m Graph.empty 0
  rw [hGoff] at hloop
  have hGnodes : G.nodes = addedNodes K_n B_n m 0 := by
    have h := congrArg (fun p => p.1.nodes) hloop
    simpa [Graph.empty] using h
  have hGedges : G.edges = addedEdges K_n B_n m 0 := by
    have h := congrArg (fun p => p.1.edges) hloop
    simpa [Graph.empty] using h
  have hmPB : ¬(K_n = 1 ∧ m = 1) := by
    rintro ⟨hK1, hm1'⟩
    apply hx
    refine ⟨hK1, ?_⟩
    rw [hm1', Nat.cast_one, mul_one] at hPBm
    exact hPBm
  have hnodecount : (addedNodes K_n B_n m 0).card = m * K_n.toNat := by
    by_cases h2 : 2 ≤ K_n
    · obtain ⟨n, hn⟩ : ∃ n, m = n + 1 := ⟨m - 1, by omega⟩
      rw [hn, addedNodes_main (by omega) hBK h2 n, Int.card_Ico]
      have hKcast : ((K_n.toNat : ℕ) : ℤ) = K_n := Int.toNat_of_nonneg (by omega)
      have harith : ((n + 1 : ℕ) : ℤ) * K_n - 0 = (((n + 1) * K_n.toNat : ℕ) : ℤ) := by
        push_cast [hKcast]
        ring
      rw [harith, Int.toNat_natCast]
    · have hK1 : K_n = 1 := by omega
      have hB1 : B_n = 1 := by omega
      have hm2 : 2 ≤ m := by
        rcases Nat.lt_or_ge m 2 with h | h
        · exact absurd ⟨hK1, by omega⟩ hmPB
        · exact h
      obtain ⟨n, hn⟩ : ∃ n, m = n + 1 := ⟨m - 1, by omega⟩
      rw [hK1, hB1, hn, addedNodes_one_main n (by omega), Int.card_Ico]
      simp
  refine ⟨G, ?_, ?_, ?_, ?_⟩
  · unfold create_path_connected_k_complete_graphs
    rw [if_pos ⟨hP, hB, hBK, hmod⟩, hmdef, hGoff]
  · unfold Graph.numberOfNodes
    rw [hmdef, hGnodes, hnodecount]
  · unfold Graph.numberOfEdges
    rw [hmdef, hGedges, card_addedEdges_main hK hBK m hm1]
  · by_cases h2 : 2 ≤ K_n
    · refine pathChain_connected hB hBK m hm1 G hGedges ?_
      obtain ⟨n, hn⟩ : ∃ n, m = n + 1 := ⟨m - 1, by omega⟩
      rw [hGnodes, hn, addedNodes_main (by omega) hBK h2 n]
    · have hK1 : K_n = 1 := by omega
      have hB1 : B_n = 1 := by omega
      have hm2 : 2 ≤ m := by
        rcases Nat.lt_or_ge m 2 with h | h
        · exact absurd ⟨hK1, by omega⟩ hmPB
        · exact h
      refine pathChain_connected hB hBK m hm1 G hGedges ?_
      obtain ⟨n, hn⟩ : ∃ n, m = n + 1 := ⟨m - 1, by omega⟩
      rw [hGnodes, hK1, hB1, hn, addedNodes_one_main n (by omega)]
      norm_num

theorem closing_mem_iff {K_n : ℤ} (hK2 : 2 ≤ K_n) (m : ℕ) (hm : 1 ≤ m) :
    normEdge 0 ((m : ℤ) * K_n - 4) ∈ addedEdges K_n 2 m 0 ↔
      (0 < (m : ℤ) * K_n - 4 ∧ (m : ℤ) * K_n - 4 ≤ K_n - 1) := by
  have hKcast : ((K_n.toNat : ℕ) : ℤ) = K_n := Int.toNat_of_nonneg (by linarith)
  rcases lt_trichotomy ((m : ℤ) * K_n - 4) 0 with ht | ht | ht
  · rw [normEdge, if_neg (by linarith)]
    constructor
    · intro hmem
      rw [mem_addedEdges] at hmem
      obtain ⟨j, hj, hcl | ⟨h0, heq⟩⟩ := hmem
      · rw [mem_cliqueEdgeSet] at hcl
        obtain ⟨i1, i2, h12, h2K, heq⟩ := hcl
        have h1 := congrArg Prod.fst heq
        dsimp only at h1
        have hjK : 0 ≤ (j : ℤ) * K_n := mul_nonneg (Nat.cast_nonneg j) (by linarith)
        have hi1 : (0 : ℤ) ≤ (i1 : ℤ) := Nat.cast_nonneg i1
        linarith
      · have h2 := congrArg Prod.snd heq
        dsimp only at h2
        rw [zero_add] at h0 h2
        exact absurd h2.symm h0
    · rintro ⟨h, -⟩
      linarith
  · rw [normEdge, if_pos (by linarith)]
    constructor
    · intro hmem
      rw [mem_addedEdges] at hmem
      obtain ⟨j, hj, hcl | ⟨h0, heq⟩⟩ := hmem
      · rw [mem_cliqueEdgeSet] at hcl
        obtain ⟨i1, i2, h12, h2K, heq⟩ := hcl
        have h1 := congrArg Prod.fst heq
        have h2 := congrArg Prod.snd heq
        dsimp only at h1 h2
        rw [zero_add] at h1 h2
        have hjK : 0 ≤ (j : ℤ) * K_n := mul_nonneg (Nat.cast_nonneg j) (by linarith)
        have hi1 : (0 : ℤ) ≤ (i1 : ℤ) := Nat.cast_nonneg i1
        have hi2 : (i1 : ℤ) < (i2 : ℤ) := by exact_mod_cast h12
        linarith
      · have h2 := congrArg Prod.snd heq
        dsimp only at h2
        rw [zero_add] at h0 h2
        exact absurd (h2.symm.trans ht) h0
    · rintro ⟨h, -⟩
      linarith
  · rw [normEdge, if_pos (by linarith)]
    constructor
    · intro hmem
      rw [mem_addedEdges] at hmem
      obtain ⟨j, hj, hcl | ⟨h0, heq⟩⟩ := hmem
      · rw [mem_cliqueEdgeSet] at hcl
        obtain ⟨i1, i2, h12, h2K, heq⟩ := hcl
        have h1 := congrArg Prod.fst heq
        have h2 := congrArg Prod.snd heq
        dsimp only at h1 h2
        rw [zero_add] at h1 h2
        have hjK : 0 ≤ (j : ℤ) * K_n := mul_nonneg (Nat.cast_nonneg j) (by linarith)
        have hi1 : (0 : ℤ) ≤ (i1 : ℤ) := Nat.cast_nonneg i1
        have hi10 : (i1 : ℤ) = 0 ∧ (j : ℤ) * K_n = 0 := by constructor <;> linarith
        have hi2K : (i2 : ℤ) < K_n := by
          rw [← hKcast]
          exact_mod_cast h2K
        constructor
        · linarith
        · linarith
      · have h1 := congrArg Prod.fst heq
        have h2 := congrArg Prod.snd heq
        unfold chainSrc at h1
        dsimp only at h1 h2
        rw [zero_add] at h0 h1 h2
        have hj1 : 1 ≤ (j : ℤ) := by
          rcases Nat.eq_zero_or_pos j with hj0 | hj0
          · exfalso
            apply h0
            rw [hj0]
            norm_num
          · exact_mod_cast hj0
        have hjK : K_n ≤ (j : ℤ) * K_n := by
          have := mul_le_mul_of_nonneg_right hj1 (show (0 : ℤ) ≤ K_n by linarith)
          linarith
        exfalso
        linarith
    · rintro ⟨hlo, hhi⟩
      rw [mem_addedEdges]
      refine ⟨0, by omega, Or.inl ?_⟩
      rw [mem_cliqueEdgeSet]
      refine ⟨0, ((m : ℤ) * K_n - 4).toNat, ?_, ?_, ?_⟩
      · omega
      · have hcast2 : (((((m : ℤ) * K_n - 4)).toNat : ℕ) : ℤ) = (m : ℤ) * K_n - 4 :=
          Int.toNat_of_nonneg (by linarith)
        have : ((((m : ℤ) * K_n - 4)).toNat : ℤ) < ((K_n.toNat : ℕ) : ℤ) := by
          rw [hcast2, hKcast]
          linarith
        exact_mod_cast this
      · have hcast2 : (((((m : ℤ) * K_n - 4)).toNat : ℕ) : ℤ) = (m : ℤ) * K_n - 4 :=
          Int.toNat_of_nonneg (by linarith)
        rw [Prod.mk.injEq]
        constructor
        · norm_num
        · rw [Nat.cast_zero, zero_mul, zero_add, zero_add, hcast2]

theorem closing_condition_iff {K_n : ℤ} (hK2 : 2 ≤ K_n) (m : ℕ) (hm : 1 ≤ m) :
    (0 < (m : ℤ) * K_n - 4 ∧ (m : ℤ) * K_n - 4 ≤ K_n - 1) ↔
      ((m = 1 ∧ 5 ≤ K_n) ∨ (m = 2 ∧ K_n = 3)) := by
  rcases Nat.lt_or_ge m 3 with hm3 | hm3
  · interval_cases m
    · rw [Nat.cast_one, one_mul]
      constructor
      · rintro ⟨h1, -⟩
        exact Or.inl ⟨rfl, by linarith⟩
      · rintro (⟨-, h⟩ | ⟨h, -⟩)
        · constructor <;> linarith
        · cases h
    · rw [Nat.cast_ofNat]
      constructor
      · rintro ⟨h1, h2⟩
        exact Or.inr ⟨rfl, by linarith⟩
      · rintro (⟨h, -⟩ | ⟨-, h⟩)
        · cases h
        · rw [h]
          norm_num
  · have hm3' : (3 : ℤ) ≤ (m : ℤ) := by exact_mod_cast hm3
    have h3K : 3 * K_n ≤ (m : ℤ) * K_n :=
      mul_le_mul_of_nonneg_right hm3' (by linarith)
    constructor
    · rintro ⟨-, h2⟩
      exfalso
      linarith
    · rintro (⟨h, -⟩ | ⟨h, -⟩) <;> omega

/-- C4 amended: build_cycle_chain fails whenever B_n is not 2; for every valid
triple with B_n = 2 its edge count equals the path chain edge count plus one,
except when the closing edge collides with an existing clique edge (one block
with K_n at least 5, or two blocks with K_n = 3), where the counts are equal. -/
theorem c4_amended_cycle_chain (P_n B_n K_n : ℤ) :
    (B_n ≠ 2 → create_cycle_connected_k_complete_graphs P_n B_n K_n = none) ∧
    (B_n = 2 → 0 < P_n → 2 ≤ K_n → P_n % 2 = 0 →
      ∃ Gp Gc, create_path_connected_k_complete_graphs P_n 2 K_n = some Gp ∧
        create_cycle_connected_k_complete_graphs P_n 2 K_n = some Gc ∧
        Gc.numberOfEdges = Gp.numberOfEdges +
          (if ((P_n / 2).toNat = 1 ∧ 5 ≤ K_n) ∨ ((P_n / 2).toNat = 2 ∧ K_n = 3)
            then 0 else 1)) := by
  constructor
  · intro hB2
    unfold create_cycle_connected_k_complete_graphs
    rw [if_neg hB2]
  · intro hB2 hP hK2 hmod
    have hBK : (2 : ℤ) ≤ K_n := hK2
    have hdvd : (2 : ℤ) ∣ P_n := Int.dvd_of_emod_eq_zero hmod
    have hBP : (2 : ℤ) ≤ P_n := Int.le_of_dvd hP hdvd
    have hq1 : 1 ≤ P_n / 2 := by
      rw [Int.le_ediv_iff_mul_le (by norm_num)]
      omega
    obtain ⟨m, hmdef⟩ : ∃ m : ℕ, (P_n / 2).toNat = m := ⟨_, rfl⟩
    have hm1 : 1 ≤ m := by omega
    obtain ⟨G, off, hGoff⟩ : ∃ G off, pathLoop K_n 2 m (Graph.empty, 0) = (G, off) :=
      ⟨_, _, rfl⟩
    have hloop := pathLoop_eq hBK m Graph.empty 0
    rw [hGoff] at hloop
    have hGnodes : G.nodes = addedNodes K_n 2 m 0 := by
      have h := congrArg (fun p => p.1.nodes) hloop
      simpa [Graph.empty] using h
    have hGedges : G.edges = addedEdges K_n 2 m 0 := by
      have h := congrArg (fun p => p.1.edges) hloop
      simpa [Graph.empty] using h
    have hKcast : ((K_n.toNat : ℕ) : ℤ) = K_n := Int.toNat_of_nonneg (by linarith)
    have hpath : create_path_connected_k_complete_graphs P_n 2 K_n = some G := by
      unfold create_path_connected_k_complete_graphs
      rw [if_pos ⟨hP, by norm_num, hBK, hmod⟩, hmdef, hGoff]
    have hnodecount : G.numberOfNodes = m * K_n.toNat := by
      unfold Graph.numberOfNodes
      obtain ⟨n, hn⟩ : ∃ n, m = n + 1 := ⟨m - 1, by omega⟩
      rw [hGnodes, hn, addedNodes_main (by norm_num) hBK hK2 n, Int.card_Ico]
      have harith : ((n + 1 : ℕ) : ℤ) * K_n - 0 = (((n + 1) * K_n.toNat : ℕ) : ℤ) := by
        push_cast [hKcast]
        ring
      rw [harith, Int.toNat_natCast]
    have hcyc : create_cycle_connected_k_complete_graphs P_n 2 K_n =
        some (G.addEdge 0 ((G.numberOfNodes : ℤ) - 1 - 3)) := by
      unfold create_cycle_connected_k_complete_graphs
      rw [if_pos rfl, hpath]
      rfl
    have hclose : ((G.numberOfNodes : ℤ) - 1 - 3) = (m : ℤ) * K_n - 4 := by
      rw [hnodecount]
      push_cast [hKcast]
      ring
    refine ⟨G, G.addEdge 0 ((G.numberOfNodes : ℤ) - 1 - 3), hpath, hcyc, ?_⟩
    show (insert (normEdge 0 ((G.numberOfNodes : ℤ) - 1 - 3)) G.edges).card = _
    rw [hclose, hmdef]
    by_cases hcond : (m = 1 ∧ 5 ≤ K_n) ∨ (m = 2 ∧ K_n = 3)
    · rw [if_pos hcond]
      have hmem : normEdge 0 ((m : ℤ) * K_n - 4) ∈ G.edges := by
        rw [hGedges, closing_mem_iff hK2 m hm1, closing_condition_iff hK2 m hm1]
        exact hcond
      rw [Finset.insert_eq_self.mpr hmem]
      unfold Graph.numberOfEdges
      omega
    · rw [if_neg hcond]
      have hmem : normEdge 0 ((m : ℤ) * K_n - 4) ∉ G.edges := by
        rw [hGedges, closing_mem_iff hK2 m hm1, closing_condition_iff hK2 m hm1]
        exact hcond
      rw [Finset.card_insert_of_not_mem hmem]
      unfold Graph.numberOfEdges
      omega

theorem c2_amended_witness :
    ((0 : ℤ) < 10 ∧ (0 : ℤ) < 5 ∧ (5 : ℤ) ≤ 5 ∧ (10 : ℤ) % 5 = 0 ∧
      ¬((5 : ℤ) = 1 ∧ (10 : ℤ) = 5)) ∧
    (∃ G, create_path_connected_k_complete_graphs 10 5 5 = some G ∧
      G.numberOfNodes = ((10 : ℤ) / 5).toNat * (5 : ℤ).toNat ∧
      G.numberOfEdges = ((10 : ℤ) / 5).toNat * (5 : ℤ).toNat.choose 2 +
        (((10 : ℤ) / 5).toNat - 1) ∧
      G.Connected) :=
  ⟨⟨by decide, by decide, by decide, by decide, by decide⟩,
    c2_amended_path_chain_shape 10 5 5 (by decide) (by decide) (by decide) (by decide)
      (by decide)⟩

/-- C4 counterexample: for the valid triple (2,2,5) the path chain has 10 edges
and the cycle chain also has 10 edges, not 10 + 1: the closing edge
(0, 5 - 1 - 3) = (0,1) already exists in the single K_5 block. -/
theorem c4_counterexample :
    ((2 : ℤ) = 2 ∧ (0 : ℤ) < 2 ∧ (2 : ℤ) ≤ 5 ∧ (2 : ℤ) % 2 = 0) ∧
    (create_path_connected_k_complete_graphs 2 2 5).map Graph.numberOfEdges = some 10 ∧
    (create_cycle_connected_k_complete_graphs 2 2 5).map Graph.numberOfEdges = some 10 ∧
    (10 : ℕ) ≠ 10 + 1 := by
  refine ⟨by decide, rfl, ?_, by decide⟩
  rfl

theorem c4_amended_witness :
    ((3 : ℤ) ≠ 2 ∧ create_cycle_connected_k_complete_graphs 6 3 4 = none) ∧
    ((2 : ℤ) = 2 ∧ (0 : ℤ) < 4 ∧ (2 : ℤ) ≤ 2 ∧ (4 : ℤ) % 2 = 0) ∧
    (∃ Gp Gc, create_path_connected_k_complete_graphs 4 2 2 = some Gp ∧
      create_cycle_connected_k_complete_graphs 4 2 2 = some Gc ∧
      Gc.numberOfEdges = Gp.numberOfEdges +
        (if (((4 : ℤ) / 2).toNat = 1 ∧ 5 ≤ (2 : ℤ)) ∨ (((4 : ℤ) / 2).toNat = 2 ∧ (2 : ℤ) = 3)
          then 0 else 1)) :=
  ⟨⟨by decide, (c4_amended_cycle_chain 6 3 4).1 (by decide)⟩,
    ⟨rfl, by decide, by decide, by decide⟩,
    (c4_amended_cycle_chain 4 2 2).2 rfl (by decide) (by decide) (by decide)⟩
